import Mathlib

/-!
Verification development for the `his` C++11 image-processing template library.

The library's core is a family of iteration templates over 2-d strided grids:

* `Foreach.hpp` — `for_each` over 1 to 4 grids of identical shape, row-major;
* `ForeachPair.hpp` — `for_each_pair` over all 4-adjacent cell pairs;
* `Filter.hpp` — `filter`, a boundary-clipped local-window filter, and
  `gaussian_kernel`;
* `MatrixWrapper.hpp` / `Matrix.hpp` — non-owning strided views (`crop`, `set`,
  `copy_to`) and the owning `Matrix` (`create`, `clone`).

The definitions below are shallow embeddings of those templates.  Iteration
templates are embedded through the positions their pointers address: a row
pointer `mat[y]` addresses position `(y, 0)`, `p += 1` advances one column and
`p += mat.step()` advances one row (this is exactly the `IdxMap` instantiation
shipped with the library, whose `Idx` type reacts to the two pointer bumps by
`++x` resp. `++y`).  C loops `for (i = lo; i < hi; ++i)` are embedded as
structural recursion on the remaining iteration count so that all definitions
evaluate.  Debug-only `assert` checks guarding multi-grid shape agreement are
embedded as an `Except` error return.
-/

namespace His

/-- A grid position: row first (`y`), column second (`x`). -/
abbrev Pos := Nat × Nat

/-- Pointer bump `p += 1` inside a row: advance one column
    (`Idx::operator+=(Idx&, int)` in IdxMap.hpp). -/
def colAdv (p : Pos) : Pos := (p.1, p.2 + 1)

/-- Pointer bump `p += mat.step()`: advance one row
    (`Idx::operator+=(Idx&, Idx::Step)` in IdxMap.hpp). -/
def rowAdv (p : Pos) : Pos := (p.1 + 1, p.2)

/-- Inner loop of the single-grid `for_each` (Foreach.hpp lines 50-58):
    starting from a row pointer at `p`, performs `n` iterations, each visiting
    the current position and bumping the pointer one column. -/
def forEachRowAux : Nat → Pos → List Pos
  | 0, _ => []
  | n + 1, p => p :: forEachRowAux n (colAdv p)

/-- Outer loop of the single-grid `for_each`: `n` remaining rows starting at
    row `y`; each iteration takes the row pointer `mat[y]` (position `(y, 0)`)
    and runs the inner loop over `cols` columns. -/
def forEachRowsAux : Nat → Nat → Nat → List Pos
  | 0, _, _ => []
  | n + 1, cols, y => forEachRowAux cols (y, 0) ++ forEachRowsAux n cols (y + 1)

/-- The sequence of positions visited by `his::for_each` on a grid of shape
    `rows × cols` (Foreach.hpp): the functor is invoked once per entry, in
    list order. -/
def forEachTrace (rows cols : Nat) : List Pos := forEachRowsAux rows cols 0

/-- The data a grid exposes to the iteration templates: a shape and the
    element addressed at each position (MatrixWrapper gives
    `mat[y][x] = m_start[m_step*y + x]`; the templates only require this
    grid capability). -/
structure GridData (α : Type) where
  rows : Nat
  cols : Nat
  elem : Nat → Nat → α

/-- Failures of the multi-grid iteration templates.  The C++ source guards the
    shape agreement of its grid arguments with debug `assert`s; a failing check
    is embedded as this error value. -/
inductive IterError where
  | shapeMismatch
deriving DecidableEq, Repr

/-- Inner loop of the single-grid `for_each`, instantiated with a grid: the
    functor receives the element the pointer addresses. -/
def forEach1RowAux {α : Type} : Nat → GridData α → Pos → List α
  | 0, _, _ => []
  | n + 1, m, p => m.elem p.1 p.2 :: forEach1RowAux n m (colAdv p)

/-- Outer loop of the single-grid `for_each`, instantiated with a grid. -/
def forEach1RowsAux {α : Type} : Nat → GridData α → Nat → List α
  | 0, _, _ => []
  | n + 1, m, y => forEach1RowAux m.cols m (y, 0) ++ forEach1RowsAux n m (y + 1)

/-- `his::for_each(mat, func)` (Foreach.hpp lines 45-59): the list of functor
    arguments, in invocation order. -/
def forEach1 {α : Type} (m : GridData α) : List α := forEach1RowsAux m.rows m 0

/-- Inner loop of the two-grid `for_each` (Foreach.hpp lines 71-80): two row
    pointers advance in lockstep; bound is `mat1.cols()`. -/
def forEach2RowAux {α β : Type} : Nat → GridData α → GridData β → Pos → Pos → List (α × β)
  | 0, _, _, _, _ => []
  | n + 1, m1, m2, p1, p2 =>
      (m1.elem p1.1 p1.2, m2.elem p2.1 p2.2) ::
        forEach2RowAux n m1 m2 (colAdv p1) (colAdv p2)

/-- Outer loop of the two-grid `for_each`; bound is `mat1.rows()`. -/
def forEach2RowsAux {α β : Type} : Nat → GridData α → GridData β → Nat → List (α × β)
  | 0, _, _, _ => []
  | n + 1, m1, m2, y =>
      forEach2RowAux m1.cols m1 m2 (y, 0) (y, 0) ++ forEach2RowsAux n m1 m2 (y + 1)

/-- `his::for_each(mat1, mat2, func)` (Foreach.hpp lines 63-81).  The shape
    `assert` at line 69 is embedded as a `shapeMismatch` error; on success the
    result lists the argument pairs of the functor invocations in order. -/
def forEach2 {α β : Type} (m1 : GridData α) (m2 : GridData β) :
    Except IterError (List (α × β)) :=
  if m1.rows = m2.rows ∧ m1.cols = m2.cols then
    .ok (forEach2RowsAux m1.rows m1 m2 0)
  else
    .error .shapeMismatch

/-- First-column loop of `for_each_pair` (ForeachPair.hpp lines 40-47):
    `up = mat[0]`, `down = mat[1]`, and `n` iterations each emitting the pair
    under the two pointers and bumping both by `mat.step()` (one row). -/
def pairColAux : Nat → Pos → Pos → List (Pos × Pos)
  | 0, _, _ => []
  | n + 1, up, down => (up, down) :: pairColAux n (rowAdv up) (rowAdv down)

/-- First-row loop of `for_each_pair` (lines 49-56): `left = mat[0]`,
    `right = mat[0] + 1`, bumping both one column per iteration. -/
def pairRowAux : Nat → Pos → Pos → List (Pos × Pos)
  | 0, _, _ => []
  | n + 1, l, r => (l, r) :: pairRowAux n (colAdv l) (colAdv r)

/-- Inner loop of the remaining-rows part of `for_each_pair` (lines 64-69):
    per iteration two invocations, `func(*up, *center)` then
    `func(*left, *center)`, then all three pointers bump one column. -/
def pairRestRowAux : Nat → Pos → Pos → Pos → List (Pos × Pos)
  | 0, _, _, _ => []
  | n + 1, up, l, c =>
      (up, c) :: (l, c) :: pairRestRowAux n (colAdv up) (colAdv l) (colAdv c)

/-- Outer loop of the remaining-rows part of `for_each_pair` (lines 59-70):
    for each remaining row `y`, `up = mat[y-1] + 1`, `left = mat[y]`,
    `center = mat[y] + 1`, and the inner loop runs `cols - 1` times. -/
def pairRestAux : Nat → Nat → Nat → List (Pos × Pos)
  | 0, _, _ => []
  | n + 1, cols, y =>
      pairRestRowAux (cols - 1) (y - 1, 1) (y, 0) (y, 1) ++ pairRestAux n cols (y + 1)

/-- The sequence of position pairs visited by `his::for_each_pair` on a grid of
    shape `rows × cols` (ForeachPair.hpp lines 36-71): the functor is invoked
    once per entry, first argument first.  Each of the three loops starts its
    counter at 1 and runs while it is below `rows` (resp. `cols`), hence
    `rows - 1` (resp. `cols - 1`) iterations. -/
def forEachPairTrace (rows cols : Nat) : List (Pos × Pos) :=
  pairColAux (rows - 1) (0, 0) (1, 0) ++
    pairRowAux (cols - 1) (0, 0) (0, 1) ++
      pairRestAux (rows - 1) cols 1

/-- Two grid positions are 4-adjacent: they differ by exactly one row or
    exactly one column (not both). -/
def Adjacent (p q : Pos) : Prop :=
  (p.1 = q.1 ∧ (p.2 + 1 = q.2 ∨ q.2 + 1 = p.2)) ∨
    (p.2 = q.2 ∧ (p.1 + 1 = q.1 ∨ q.1 + 1 = p.1))

/-- First-column loop of the two-grid `for_each_pair` (ForeachPair.hpp lines
    80-90): four pointers advance in lockstep; the functor receives
    `(*up1, *down1, *up2, *down2)`, grouped here by grid. -/
def pair2ColAux {α β : Type} :
    Nat → GridData α → GridData β → Pos → Pos → Pos → Pos → List ((α × α) × (β × β))
  | 0, _, _, _, _, _, _ => []
  | n + 1, m1, m2, u1, d1, u2, d2 =>
      ((m1.elem u1.1 u1.2, m1.elem d1.1 d1.2), (m2.elem u2.1 u2.2, m2.elem d2.1 d2.2)) ::
        pair2ColAux n m1 m2 (rowAdv u1) (rowAdv d1) (rowAdv u2) (rowAdv d2)

/-- First-row loop of the two-grid `for_each_pair` (lines 92-102). -/
def pair2RowAux {α β : Type} :
    Nat → GridData α → GridData β → Pos → Pos → Pos → Pos → List ((α × α) × (β × β))
  | 0, _, _, _, _, _, _ => []
  | n + 1, m1, m2, l1, r1, l2, r2 =>
      ((m1.elem l1.1 l1.2, m1.elem r1.1 r1.2), (m2.elem l2.1 l2.2, m2.elem r2.1 r2.2)) ::
        pair2RowAux n m1 m2 (colAdv l1) (colAdv r1) (colAdv l2) (colAdv r2)

/-- Inner loop of the remaining-rows part of the two-grid `for_each_pair`
    (lines 113-119): two invocations per iteration, `(up, center)` then
    `(left, center)`, on both grids in lockstep. -/
def pair2RestRowAux {α β : Type} :
    Nat → GridData α → GridData β → Pos → Pos → Pos → Pos → Pos → Pos →
      List ((α × α) × (β × β))
  | 0, _, _, _, _, _, _, _, _ => []
  | n + 1, m1, m2, u1, l1, c1, u2, l2, c2 =>
      ((m1.elem u1.1 u1.2, m1.elem c1.1 c1.2), (m2.elem u2.1 u2.2, m2.elem c2.1 c2.2)) ::
        ((m1.elem l1.1 l1.2, m1.elem c1.1 c1.2), (m2.elem l2.1 l2.2, m2.elem c2.1 c2.2)) ::
          pair2RestRowAux n m1 m2 (colAdv u1) (colAdv l1) (colAdv c1)
            (colAdv u2) (colAdv l2) (colAdv c2)

/-- Outer loop of the remaining-rows part of the two-grid `for_each_pair`
    (lines 105-120). -/
def pair2RestAux {α β : Type} :
    Nat → GridData α → GridData β → Nat → List ((α × α) × (β × β))
  | 0, _, _, _ => []
  | n + 1, m1, m2, y =>
      pair2RestRowAux (m1.cols - 1) m1 m2 (y - 1, 1) (y, 0) (y, 1) (y - 1, 1) (y, 0) (y, 1) ++
        pair2RestAux n m1 m2 (y + 1)

/-- `his::for_each_pair(mat1, mat2, func)` (ForeachPair.hpp lines 73-121).
    The shape `assert` at line 79 is embedded as a `shapeMismatch` error; on
    success the result lists, in invocation order, the functor arguments
    grouped per grid (loop bounds are `mat1.rows()` and `mat1.cols()`). -/
def forEachPair2 {α β : Type} (m1 : GridData α) (m2 : GridData β) :
    Except IterError (List ((α × α) × (β × β))) :=
  if m1.rows = m2.rows ∧ m1.cols = m2.cols then
    .ok (pair2ColAux (m1.rows - 1) m1 m2 (0, 0) (1, 0) (0, 0) (1, 0) ++
      pair2RowAux (m1.cols - 1) m1 m2 (0, 0) (0, 1) (0, 0) (0, 1) ++
        pair2RestAux (m1.rows - 1) m1 m2 1)
  else
    .error .shapeMismatch

/-- A C-style counting loop `for (i = lo; i < hi; ++i)` over `Int`, emitting
    `body i` at each iteration; `fuel` is the remaining iteration count. -/
def cForAux {β : Type} : Nat → Int → Int → (Int → List β) → List β
  | 0, _, _, _ => []
  | n + 1, i, hi, body => if i < hi then body i ++ cForAux n (i + 1) hi body else []

/-- A C-style counting loop `for (i = lo; i < hi; ++i)` over `Int`. -/
def cFor {β : Type} (lo hi : Int) (body : Int → List β) : List β :=
  cForAux (hi - lo).toNat lo hi body

/-- The schedule of output positions processed by `his::filter`
    (Filter.hpp lines 119-149), as `(y, x, checked)` triples in processing
    order, where `checked` records whether the position goes through the
    boundary path `parse_with_check` (the four bands) or the central
    unclipped path.  `eval(output(y, x))` is invoked exactly once per entry.
    Note the source bounds the column extent of the left and right bands by
    `kernel.rows()/2` (lines 131 and 136), not `kernel.cols()/2`. -/
def filterVisits (rows cols krows kcols : Int) : List (Int × Int × Bool) :=
  cFor 0 (krows / 2) (fun y => cFor 0 cols (fun x => [(y, x, true)])) ++
    cFor (rows - krows / 2) rows (fun y => cFor 0 cols (fun x => [(y, x, true)])) ++
      cFor (krows / 2) (rows - krows / 2)
        (fun y => cFor 0 (krows / 2) (fun x => [(y, x, true)])) ++
        cFor (krows / 2) (rows - krows / 2)
          (fun y => cFor (cols - krows / 2) cols (fun x => [(y, x, true)])) ++
          cFor (krows / 2) (rows - krows / 2)
            (fun y => cFor (kcols / 2) (cols - kcols / 2) (fun x => [(y, x, false)]))

/-- The `(input cell, kernel cell)` pairs fed to `accm` by `parse_with_check`
    (Filter.hpp lines 104-117) at output position `(y, x)`: `his::for_each`
    walks `input.crop(y0, x0, y1-y0, x1-x0)` and
    `kernel.crop(y0-y+krows/2, x0-x+kcols/2, y1-y0, x1-x0)` row-major; the
    cropped views address cell `(i, j)` at `(y0+i, x0+j)` of `input` resp.
    `(y0-y+krows/2+i, x0-x+kcols/2+j)` of `kernel` (crop shifts the origin by
    `step*top + left` and keeps the step). -/
def parseWithCheckPairs (rows cols krows kcols x y : Int) :
    List ((Int × Int) × (Int × Int)) :=
  let x0 := max (x - kcols / 2) 0
  let x1 := min (x + kcols / 2 + 1) cols
  let y0 := max (y - krows / 2) 0
  let y1 := min (y + krows / 2 + 1) rows
  cFor 0 (y1 - y0) (fun i => cFor 0 (x1 - x0) (fun j =>
    [((y0 + i, x0 + j), (y0 - y + krows / 2 + i, x0 - x + kcols / 2 + j))]))

/-- The `(input cell, kernel cell)` pairs fed to `accm` by the central path of
    `filter` (lines 144-145) at output position `(y, x)`: `his::for_each`
    walks `input.crop(y - krows/2, x - kcols/2, krows, kcols)` and the whole
    `kernel` row-major. -/
def centralPairs (krows kcols x y : Int) : List ((Int × Int) × (Int × Int)) :=
  cFor 0 krows (fun i => cFor 0 kcols (fun j =>
    [((y - krows / 2 + i, x - kcols / 2 + j), (i, j))]))

/-- The `(input cell, kernel cell)` pairs fed to `accm` at one entry of the
    `filter` schedule. -/
def visitPairs (rows cols krows kcols : Int) (v : Int × Int × Bool) :
    List ((Int × Int) × (Int × Int)) :=
  if v.2.2 then parseWithCheckPairs rows cols krows kcols v.2.1 v.1
  else centralPairs krows kcols v.2.1 v.1

/-- The cell assignments performed by `his::gaussian_kernel(rows, cols, sigma)`
    (Filter.hpp lines 167-184), in program order.  Each entry is
    `((row, col), (dx, dy))` where `(row, col)` is the assigned cell and
    `(dx, dy)` identifies the assigned weight `exp(-(dx*dx+dy*dy)/(2*sigma*sigma))`
    (the value is determined by `(dx, dy)`, so the weight is recorded
    symbolically).  The source indexes both mirror columns as `rows/2 - dx` and
    `rows/2 + dx` (lines 177-180). -/
def gaussianWrites (rows cols : Int) : List ((Int × Int) × (Int × Int)) :=
  cFor 0 (rows / 2 + 1) (fun dy =>
    cFor 0 (cols / 2 + 1) (fun dx =>
      [((rows / 2 - dy, rows / 2 - dx), (dx, dy)),
       ((rows / 2 - dy, rows / 2 + dx), (dx, dy)),
       ((rows / 2 + dy, rows / 2 + dx), (dx, dy)),
       ((rows / 2 + dy, rows / 2 - dx), (dx, dy))]))

/-- `his::MatrixWrapper` metadata (MatrixWrapper.hpp): `start` is the origin
    as an element offset into the underlying buffer, `step` the elements to
    advance one row.  Cell `(y, x)` is addressed at `start + step*y + x`. -/
structure MatrixWrapper where
  start : Int
  rows : Nat
  cols : Nat
  step : Nat
deriving DecidableEq, Repr

/-- The buffer offset `MatrixWrapper` addresses for cell `(y, x)`:
    `operator[](int y)` returns `m_start + m_step * y` and `operator()(y, x)`
    adds `x`; both accept negative coordinates. -/
def MatrixWrapper.address (m : MatrixWrapper) (y x : Int) : Int :=
  m.start + (m.step : Int) * y + x

/-- `MatrixWrapper::crop(top, left, rows, cols)` (MatrixWrapper.hpp lines
    107-113): the result keeps the step, takes the given shape, and moves the
    origin to `m_start + m_step * top + left`; `top` and `left` may be
    negative (the documented un-crop escape hatch). -/
def MatrixWrapper.crop (m : MatrixWrapper) (top left : Int) (rows cols : Nat) :
    MatrixWrapper :=
  { start := m.start + (m.step : Int) * top + left
    rows := rows
    cols := cols
    step := m.step }

/-- Write one element of a linear buffer. -/
def bufWrite {α : Type} (b : Int → α) (o : Int) (v : α) : Int → α :=
  fun q => if q = o then v else b q

/-- Inner loop of `MatrixWrapper::set` (MatrixWrapper.hpp lines 73-75):
    writes `init_val` at `(y, x)` for `n` successive columns starting at `x`.
    The source bounds this loop by `rows()` (line 74), not `cols()`. -/
def setColAux {α : Type} (m : MatrixWrapper) (v : α) : Nat → Nat → Nat → (Int → α) → Int → α
  | 0, _, _, b => b
  | n + 1, y, x, b => setColAux m v n y (x + 1) (bufWrite b (m.address y x) v)

/-- Outer loop of `MatrixWrapper::set`: for each row, run the inner loop with
    `rows()` iterations (the bound the source uses at line 74). -/
def setRowsAux {α : Type} (m : MatrixWrapper) (v : α) : Nat → Nat → (Int → α) → Int → α
  | 0, _, b => b
  | n + 1, y, b => setRowsAux m v n (y + 1) (setColAux m v m.rows y 0 b)

/-- `MatrixWrapper::set(init_val)` applied to a buffer `b`. -/
def MatrixWrapper.set {α : Type} (m : MatrixWrapper) (v : α) (b : Int → α) : Int → α :=
  setRowsAux m v m.rows 0 b

/-- The heap of allocated buffers: `nextId` is the next fresh allocation
    identifier, `buf i o` the content of buffer `i` at element offset `o`
    (contents of never-written offsets model the indeterminate values of a
    fresh `new T[n]`). -/
structure Store (α : Type) where
  nextId : Nat
  buf : Nat → Int → α

/-- A grid view tied to an allocated buffer: `his::Matrix` data
    (Matrix.hpp), with the `MatrixWrapper` fields plus the buffer handle. -/
structure MatRef where
  bufId : Nat
  start : Int
  rows : Nat
  cols : Nat
  step : Nat

/-- Element read `mat[y][x] = m_start[m_step*y + x]` through a store. -/
def readEl {α : Type} (st : Store α) (m : MatRef) (y x : Nat) : α :=
  st.buf m.bufId (m.start + (m.step : Int) * y + x)

/-- Element write `mat[y][x] = v` through a store. -/
def writeEl {α : Type} (st : Store α) (m : MatRef) (y x : Nat) (v : α) : Store α :=
  { st with
    buf := fun i o =>
      if i = m.bufId ∧ o = m.start + (m.step : Int) * y + x then v else st.buf i o }

/-- `Matrix::create(rows, cols)` (Matrix.hpp lines 37-43): allocates a fresh
    buffer of `rows * cols` elements and sets `m_rows = rows`,
    `m_cols = m_step = cols`, `m_start` at the buffer head. -/
def matrixCreate {α : Type} (rows cols : Nat) (st : Store α) : MatRef × Store α :=
  (⟨st.nextId, 0, rows, cols, cols⟩, ⟨st.nextId + 1, st.buf⟩)

/-- One row of `MatrixWrapper::copy_to` (MatrixWrapper.hpp lines 85-90): the
    `memcpy` of row `y` copies `cols` contiguous elements, modelled element by
    element (`memcpy` forbids overlap of source and destination). -/
def copyRowAux {α : Type} (src dst : MatRef) (y : Nat) : Nat → Nat → Store α → Store α
  | 0, _, st => st
  | n + 1, x, st => copyRowAux src dst y n (x + 1) (writeEl st dst y x (readEl st src y x))

/-- The row loop of `MatrixWrapper::copy_to`: `rows()` rows, each copied by a
    `memcpy` of `m_cols` elements. -/
def copyRowsAux {α : Type} (src dst : MatRef) : Nat → Nat → Store α → Store α
  | 0, _, st => st
  | n + 1, y, st => copyRowsAux src dst n (y + 1) (copyRowAux src dst y src.cols 0 st)

/-- `src.copy_to(dst)` through a store. -/
def MatRef.copyTo {α : Type} (src dst : MatRef) (st : Store α) : Store α :=
  copyRowsAux src dst src.rows 0 st

/-- `MatrixWrapper::clone()` (MatrixWrapper.hpp lines 123-128): constructs
    `Matrix<T> matrix(m_rows, m_cols)` (a fresh allocation) and
    `copy_to`s into it. -/
def MatRef.clone {α : Type} (m : MatRef) (st : Store α) : MatRef × Store α :=
  let p := matrixCreate m.rows m.cols st
  (p.1, m.copyTo p.1 p.2)

/-! ### Closed forms of the `for_each` loops -/

theorem forEachRowAux_eq (n : Nat) : ∀ p : Pos,
    forEachRowAux n p = (List.range n).map (fun i => (p.1, p.2 + i)) := by
  induction n with
  | zero => intro p; simp [forEachRowAux]
  | succ n ih =>
    intro p
    rw [List.range_succ_eq_map, List.map_cons, List.map_map]
    simp only [forEachRowAux, ih, colAdv, Nat.add_zero]
    refine congrArg₂ List.cons rfl ?_
    refine List.map_congr_left fun i _ => ?_
    simp only [Function.comp_apply, Prod.mk.injEq, true_and]
    omega

theorem forEachRowsAux_eq (n : Nat) (cols : Nat) : ∀ y : Nat,
    forEachRowsAux n cols y =
      (List.range' y n).flatMap (fun yy => (List.range cols).map fun x => (yy, x)) := by
  induction n with
  | zero => intro y; simp [forEachRowsAux]
  | succ n ih =>
    intro y
    rw [List.range'_succ, List.flatMap_cons]
    simp only [forEachRowsAux, ih, forEachRowAux_eq]
    refine congrArg₂ (· ++ ·) ?_ rfl
    exact List.map_congr_left fun i _ => by simp

theorem forEachTrace_eq (R C : Nat) :
    forEachTrace R C =
      (List.range R).flatMap (fun y => (List.range C).map fun x => (y, x)) := by
  rw [forEachTrace, forEachRowsAux_eq, ← List.range_eq_range']

/-- `count` of a member of a duplicate-free list is 1, for any lawful `BEq`. -/
theorem count_eq_one_of_nodup_mem {α : Type} [BEq α] [LawfulBEq α] {l : List α} {a : α}
    (h1 : l.Nodup) (h2 : a ∈ l) : l.count a = 1 := by
  induction l with
  | nil => cases h2
  | cons b l ih =>
    rw [List.nodup_cons] at h1
    rw [List.count_cons]
    rcases List.mem_cons.mp h2 with rfl | hmem
    · rw [List.count_eq_zero_of_not_mem h1.1, if_pos (beq_self_eq_true a)]
    · have hne : ¬(b == a) = true := by
        intro h
        exact h1.1 (by rw [eq_of_beq h]; exact hmem)
      rw [ih h1.2 hmem, if_neg hne]

theorem forEachTrace_nodup (R C : Nat) : (forEachTrace R C).Nodup := by
  rw [forEachTrace_eq, List.nodup_flatMap]
  constructor
  · intro y _
    exact (List.nodup_range C).map (fun a b h => by simpa using h)
  · refine (List.pairwise_lt_range R).imp ?_
    intro a b hab pr h1 h2
    simp only [List.mem_map, List.mem_range] at h1 h2
    obtain ⟨x1, _, rfl⟩ := h1
    obtain ⟨x2, _, h⟩ := h2
    exact absurd (congrArg Prod.fst h) (by simpa using Nat.ne_of_gt hab)

theorem mem_forEachTrace (R C : Nat) (p : Pos) :
    p ∈ forEachTrace R C ↔ p.1 < R ∧ p.2 < C := by
  rw [forEachTrace_eq]
  simp only [List.mem_flatMap, List.mem_map, List.mem_range]
  constructor
  · rintro ⟨y, hy, x, hx, rfl⟩; exact ⟨hy, hx⟩
  · rintro ⟨h1, h2⟩; exact ⟨p.1, h1, p.2, h2, rfl⟩

theorem forEachTrace_length (R C : Nat) : (forEachTrace R C).length = R * C := by
  rw [forEachTrace_eq, List.length_flatMap]
  have : (List.range R).map (List.length ∘ fun y => (List.range C).map fun x => (y, x)) =
      (List.range R).map (Function.const Nat C) := by
    exact List.map_congr_left fun y _ => by simp [Function.const]
  rw [this, List.map_const, List.sum_replicate, List.length_range, smul_eq_mul]

theorem forEachTrace_count (R C : Nat) (p : Pos) :
    (forEachTrace R C).count p = if p.1 < R ∧ p.2 < C then 1 else 0 := by
  split
  · exact count_eq_one_of_nodup_mem (forEachTrace_nodup R C)
      ((mem_forEachTrace R C p).mpr (by assumption))
  · exact List.count_eq_zero_of_not_mem
      (fun h => absurd ((mem_forEachTrace R C p).mp h) (by assumption))

theorem forEach1RowAux_eq {α : Type} (m : GridData α) (n : Nat) : ∀ p : Pos,
    forEach1RowAux n m p = (forEachRowAux n p).map (fun q => m.elem q.1 q.2) := by
  induction n with
  | zero => intro p; rfl
  | succ n ih => intro p; simp [forEach1RowAux, forEachRowAux, ih]

theorem forEach1_eq {α : Type} (m : GridData α) :
    forEach1 m = (forEachTrace m.rows m.cols).map (fun p => m.elem p.1 p.2) := by
  rw [forEach1, forEachTrace]
  generalize m.rows = n
  suffices h : ∀ y, forEach1RowsAux n m y =
      (forEachRowsAux n m.cols y).map (fun p => m.elem p.1 p.2) from h 0
  induction n with
  | zero => intro y; rfl
  | succ n ih =>
    intro y
    simp [forEach1RowsAux, forEachRowsAux, ih, forEach1RowAux_eq]

theorem forEach2RowAux_eq {α β : Type} (m1 : GridData α) (m2 : GridData β) (n : Nat) :
    ∀ p : Pos, forEach2RowAux n m1 m2 p p =
      (forEachRowAux n p).map (fun q => (m1.elem q.1 q.2, m2.elem q.1 q.2)) := by
  induction n with
  | zero => intro p; rfl
  | succ n ih => intro p; simp [forEach2RowAux, forEachRowAux, ih]

theorem forEach2RowsAux_eq {α β : Type} (m1 : GridData α) (m2 : GridData β) (n : Nat) :
    ∀ y : Nat, forEach2RowsAux n m1 m2 y =
      (forEachRowsAux n m1.cols y).map (fun p => (m1.elem p.1 p.2, m2.elem p.1 p.2)) := by
  induction n with
  | zero => intro y; rfl
  | succ n ih =>
    intro y
    simp [forEach2RowsAux, forEachRowsAux, ih, forEach2RowAux_eq]

/-! ### Closed forms of the `for_each_pair` loops -/

theorem flatMap_congr_left {α β : Type} {l : List α} {f g : α → List β}
    (h : ∀ a ∈ l, f a = g a) : l.flatMap f = l.flatMap g := by
  rw [List.flatMap_def, List.flatMap_def, List.map_congr_left h]

theorem pairColAux_eq (n : Nat) : ∀ up down : Pos,
    pairColAux n up down =
      (List.range n).map (fun i => ((up.1 + i, up.2), (down.1 + i, down.2))) := by
  induction n with
  | zero => intro up down; simp [pairColAux]
  | succ n ih =>
    intro up down
    rw [List.range_succ_eq_map, List.map_cons, List.map_map]
    simp only [pairColAux, ih, rowAdv]
    refine congrArg₂ List.cons (by simp) ?_
    refine List.map_congr_left fun i _ => ?_
    simp only [Function.comp_apply, Prod.mk.injEq, and_true, true_and] <;> omega

theorem pairRowAux_eq (n : Nat) : ∀ l r : Pos,
    pairRowAux n l r =
      (List.range n).map (fun i => ((l.1, l.2 + i), (r.1, r.2 + i))) := by
  induction n with
  | zero => intro l r; simp [pairRowAux]
  | succ n ih =>
    intro l r
    rw [List.range_succ_eq_map, List.map_cons, List.map_map]
    simp only [pairRowAux, ih, colAdv]
    refine congrArg₂ List.cons (by simp) ?_
    refine List.map_congr_left fun i _ => ?_
    simp only [Function.comp_apply, Prod.mk.injEq, and_true, true_and] <;> omega

theorem pairRestRowAux_eq (n : Nat) : ∀ up l c : Pos,
    pairRestRowAux n up l c =
      (List.range n).flatMap (fun i =>
        [((up.1, up.2 + i), (c.1, c.2 + i)), ((l.1, l.2 + i), (c.1, c.2 + i))]) := by
  induction n with
  | zero => intro up l c; simp [pairRestRowAux]
  | succ n ih =>
    intro up l c
    rw [List.range_succ_eq_map, List.flatMap_cons, List.flatMap_map]
    simp only [pairRestRowAux, ih, colAdv, List.cons_append, List.nil_append]
    refine congrArg₂ List.cons (by simp) (congrArg₂ List.cons (by simp) ?_)
    refine flatMap_congr_left fun i _ => ?_
    simp only [Function.comp_apply, Prod.mk.injEq, List.cons.injEq, List.nil_eq,
      and_true, true_and] <;> omega

theorem pairRestAux_eq (n : Nat) (cols : Nat) : ∀ y : Nat,
    pairRestAux n cols y =
      (List.range' y n).flatMap (fun yy =>
        (List.range (cols - 1)).flatMap (fun i =>
          [((yy - 1, 1 + i), (yy, 1 + i)), ((yy, i), (yy, 1 + i))])) := by
  induction n with
  | zero => intro y; simp [pairRestAux]
  | succ n ih =>
    intro y
    rw [List.range'_succ, List.flatMap_cons]
    simp only [pairRestAux, ih, pairRestRowAux_eq]
    refine congrArg₂ (· ++ ·) ?_ rfl
    refine flatMap_congr_left fun i _ => ?_
    simp

/-- The full `for_each_pair` position-pair sequence in closed form:
    the column-0 vertical pairs, then the row-0 horizontal pairs, then per
    remaining row the alternating vertical/horizontal pairs. -/
theorem forEachPairTrace_eq (R C : Nat) :
    forEachPairTrace R C =
      (List.range (R - 1)).map (fun i => ((i, 0), (i + 1, 0))) ++
        (List.range (C - 1)).map (fun i => ((0, i), (0, i + 1))) ++
          (List.range' 1 (R - 1)).flatMap (fun y =>
            (List.range (C - 1)).flatMap (fun i =>
              [((y - 1, 1 + i), (y, 1 + i)), ((y, i), (y, 1 + i))])) := by
  rw [forEachPairTrace, pairColAux_eq, pairRowAux_eq, pairRestAux_eq]
  refine congrArg₂ (· ++ ·) (congrArg₂ (· ++ ·) ?_ ?_) rfl
  · exact List.map_congr_left fun i _ => by
      simp only [Prod.mk.injEq, and_true, true_and] <;> omega
  · exact List.map_congr_left fun i _ => by
      simp only [Prod.mk.injEq, and_true, true_and] <;> omega

theorem mem_forEachPairTrace (R C : Nat) (hR : 1 ≤ R) (hC : 1 ≤ C) (pr : Pos × Pos) :
    pr ∈ forEachPairTrace R C ↔
      (∃ y x, y + 1 < R ∧ x < C ∧ pr = ((y, x), (y + 1, x))) ∨
      (∃ y x, y < R ∧ x + 1 < C ∧ pr = ((y, x), (y, x + 1))) := by
  rw [forEachPairTrace_eq]
  simp only [List.mem_append, List.mem_map, List.mem_flatMap, List.mem_range,
    List.mem_range'_1, List.mem_cons, List.not_mem_nil, or_false]
  constructor
  · rintro ((⟨i, hi, rfl⟩ | ⟨i, hi, rfl⟩) | ⟨y, hy, i, hi, rfl | rfl⟩)
    · exact Or.inl ⟨i, 0, by omega, hC, rfl⟩
    · exact Or.inr ⟨0, i, hR, by omega, rfl⟩
    · refine Or.inl ⟨y - 1, 1 + i, by omega, by omega, ?_⟩
      have : y - 1 + 1 = y := by omega
      rw [this]
    · exact Or.inr ⟨y, i, by omega, by omega, by simp [Nat.add_comm]⟩
  · rintro (⟨y, x, hy, hx, rfl⟩ | ⟨y, x, hy, hx, rfl⟩)
    · rcases Nat.eq_zero_or_pos x with rfl | hxpos
      · exact Or.inl (Or.inl ⟨y, by omega, rfl⟩)
      · refine Or.inr ⟨y + 1, by omega, x - 1, by omega, Or.inl ?_⟩
        have h1 : 1 + (x - 1) = x := by omega
        have h2 : y + 1 - 1 = y := by omega
        rw [h1, h2]
    · rcases Nat.eq_zero_or_pos y with rfl | hypos
      · exact Or.inl (Or.inr ⟨x, by omega, rfl⟩)
      · exact Or.inr ⟨y, by omega, x, by omega, Or.inr (by simp [Nat.add_comm])⟩

theorem forEachPairTrace_nodup (R C : Nat) : (forEachPairTrace R C).Nodup := by
  rw [forEachPairTrace_eq]
  have h1 : ((List.range (R - 1)).map (fun i => ((i, 0), (i + 1, 0))) :
      List (Pos × Pos)).Nodup :=
    (List.nodup_range _).map fun a b h => by simpa using congrArg (fun z => z.1.1) h
  have h2 : ((List.range (C - 1)).map (fun i => ((0, i), (0, i + 1))) :
      List (Pos × Pos)).Nodup :=
    (List.nodup_range _).map fun a b h => by simpa using congrArg (fun z => z.1.2) h
  have h3 : ((List.range' 1 (R - 1)).flatMap (fun y =>
      (List.range (C - 1)).flatMap (fun i =>
        [((y - 1, 1 + i), (y, 1 + i)), ((y, i), (y, 1 + i))])) :
      List (Pos × Pos)).Nodup := by
    rw [List.nodup_flatMap]
    constructor
    · intro y hy
      rw [List.mem_range'_1] at hy
      rw [List.nodup_flatMap]
      refine ⟨fun i _ => ?_, ?_⟩
      · refine List.nodup_cons.mpr ⟨?_, List.nodup_cons.mpr ⟨List.not_mem_nil _, List.nodup_nil⟩⟩
        intro hmem
        simp only [List.mem_cons, List.not_mem_nil, or_false] at hmem
        have h := congrArg (fun z => z.1.2) hmem
        simp only at h
        omega
      · refine (List.pairwise_lt_range _).imp ?_
        intro a b hab pr ha hb
        simp only [List.mem_cons, List.not_mem_nil, or_false] at ha hb
        rcases ha with rfl | rfl <;> rcases hb with h | h <;>
          · have := congrArg (fun z => z.2.2) h
            simp only at this
            omega
    · refine (List.pairwise_lt_range' _ _).imp ?_
      intro a b hab pr ha hb
      simp only [List.mem_flatMap, List.mem_cons, List.not_mem_nil, or_false,
        List.mem_range] at ha hb
      obtain ⟨i, _, ha⟩ := ha
      obtain ⟨j, _, hb⟩ := hb
      rcases ha with rfl | rfl <;> rcases hb with h | h <;>
        · have := congrArg (fun z => z.2.1) h
          simp only at this
          omega
  refine (h1.append h2 ?_).append h3 ?_
  · intro pr ha hb
    simp only [List.mem_map, List.mem_range] at ha hb
    obtain ⟨i, _, rfl⟩ := ha
    obtain ⟨j, _, h⟩ := hb
    have := congrArg (fun z => z.2.1) h
    simp only at this
    omega
  · intro pr ha hb
    simp only [List.mem_append, List.mem_map, List.mem_flatMap, List.mem_range,
      List.mem_range'_1, List.mem_cons, List.not_mem_nil, or_false] at ha hb
    obtain ⟨y, hy, i, _, hb⟩ := hb
    rcases ha with ⟨j, _, rfl⟩ | ⟨j, _, rfl⟩ <;> rcases hb with h | h <;>
      first
      | · have := congrArg (fun z => z.2.2) h
          simp only at this
          omega
      | · have hfst := congrArg (fun z => z.1.1) h
          have hsnd := congrArg (fun z => z.2.1) h
          simp only at hfst hsnd
          omega

theorem length_flatMap_const {α β : Type} (k : Nat) : ∀ (l : List α) (f : α → List β),
    (∀ a ∈ l, (f a).length = k) → (l.flatMap f).length = l.length * k := by
  intro l
  induction l with
  | nil => intro f _; simp
  | cons a l ih =>
    intro f h
    rw [List.flatMap_cons, List.length_append, h a (List.mem_cons_self a l),
      ih f (fun b hb => h b (List.mem_cons_of_mem a hb)), List.length_cons]
    ring

theorem forEachPairTrace_length (R C : Nat) (hR : 1 ≤ R) (hC : 1 ≤ C) :
    (forEachPairTrace R C).length = R * (C - 1) + C * (R - 1) := by
  rw [forEachPairTrace_eq]
  have hinner : ∀ y ∈ List.range' 1 (R - 1),
      ((List.range (C - 1)).flatMap (fun i =>
        ([((y - 1, 1 + i), (y, 1 + i)), ((y, i), (y, 1 + i))] : List (Pos × Pos)))).length
        = 2 * (C - 1) := by
    intro y _
    have h2 := length_flatMap_const (α := Nat) (β := Pos × Pos) 2 (List.range (C - 1))
      (fun i => [((y - 1, 1 + i), (y, 1 + i)), ((y, i), (y, 1 + i))]) (fun i _ => rfl)
    rw [h2, List.length_range, Nat.mul_comm]
  have houter := length_flatMap_const (α := Nat) (β := Pos × Pos) (2 * (C - 1))
    (List.range' 1 (R - 1)) _ hinner
  rw [List.length_append, List.length_append, List.length_map, List.length_map,
    List.length_range, List.length_range, houter, List.length_range']
  obtain ⟨r, rfl⟩ : ∃ r, R = r + 1 := ⟨R - 1, by omega⟩
  obtain ⟨c, rfl⟩ : ∃ c, C = c + 1 := ⟨C - 1, by omega⟩
  simp only [Nat.add_sub_cancel]
  ring

/-- Claim C3: for every grid of shape `R × C` with `R, C ≥ 1`, `for_each_pair`
    invokes the functor exactly `R*(C-1) + C*(R-1)` times, and every unordered
    4-adjacent pair of in-range positions occurs in exactly one invocation
    (in one orientation or the other, never both, never zero); in particular a
    `1 × 1` grid yields zero invocations. -/
theorem for_each_pair_coverage (R C : Nat) (hR : 1 ≤ R) (hC : 1 ≤ C) :
    (forEachPairTrace R C).length = R * (C - 1) + C * (R - 1) ∧
    ∀ p q : Pos, p.1 < R → p.2 < C → q.1 < R → q.2 < C → Adjacent p q →
      (forEachPairTrace R C).count (p, q) + (forEachPairTrace R C).count (q, p) = 1 := by
  refine ⟨forEachPairTrace_length R C hR hC, ?_⟩
  rintro ⟨py, px⟩ ⟨qy, qx⟩ hp1 hp2 hq1 hq2 hadj
  simp only at hp1 hp2 hq1 hq2
  have hnd := forEachPairTrace_nodup R C
  have hmem := fun pr => mem_forEachPairTrace R C hR hC pr
  rcases hadj with ⟨h1, h2 | h2⟩ | ⟨h1, h2 | h2⟩ <;> simp only at h1 h2
  · have hin : (((py, px), (qy, qx)) : Pos × Pos) ∈ forEachPairTrace R C :=
      (hmem _).mpr (Or.inr ⟨py, px, hp1, by omega, by simp only [Prod.mk.injEq, and_true, true_and, and_self] <;> omega⟩)
    have hout : (((qy, qx), (py, px)) : Pos × Pos) ∉ forEachPairTrace R C := by
      intro h
      rcases (hmem _).mp h with ⟨y, x, _, _, heq⟩ | ⟨y, x, _, _, heq⟩ <;>
        · simp only [Prod.mk.injEq] at heq
          omega
    rw [count_eq_one_of_nodup_mem hnd hin, List.count_eq_zero_of_not_mem hout]
  · have hin : (((qy, qx), (py, px)) : Pos × Pos) ∈ forEachPairTrace R C :=
      (hmem _).mpr (Or.inr ⟨qy, qx, hq1, by omega, by simp only [Prod.mk.injEq, and_true, true_and, and_self] <;> omega⟩)
    have hout : (((py, px), (qy, qx)) : Pos × Pos) ∉ forEachPairTrace R C := by
      intro h
      rcases (hmem _).mp h with ⟨y, x, _, _, heq⟩ | ⟨y, x, _, _, heq⟩ <;>
        · simp only [Prod.mk.injEq] at heq
          omega
    rw [count_eq_one_of_nodup_mem hnd hin, List.count_eq_zero_of_not_mem hout]
  · have hin : (((py, px), (qy, qx)) : Pos × Pos) ∈ forEachPairTrace R C :=
      (hmem _).mpr (Or.inl ⟨py, px, by omega, hp2, by simp only [Prod.mk.injEq, and_true, true_and, and_self] <;> omega⟩)
    have hout : (((qy, qx), (py, px)) : Pos × Pos) ∉ forEachPairTrace R C := by
      intro h
      rcases (hmem _).mp h with ⟨y, x, _, _, heq⟩ | ⟨y, x, _, _, heq⟩ <;>
        · simp only [Prod.mk.injEq] at heq
          omega
    rw [count_eq_one_of_nodup_mem hnd hin, List.count_eq_zero_of_not_mem hout]
  · have hin : (((qy, qx), (py, px)) : Pos × Pos) ∈ forEachPairTrace R C :=
      (hmem _).mpr (Or.inl ⟨qy, qx, by omega, hq2, by simp only [Prod.mk.injEq, and_true, true_and, and_self] <;> omega⟩)
    have hout : (((py, px), (qy, qx)) : Pos × Pos) ∉ forEachPairTrace R C := by
      intro h
      rcases (hmem _).mp h with ⟨y, x, _, _, heq⟩ | ⟨y, x, _, _, heq⟩ <;>
        · simp only [Prod.mk.injEq] at heq
          omega
    rw [count_eq_one_of_nodup_mem hnd hin, List.count_eq_zero_of_not_mem hout]

/-- Witness for C3 on a `3 × 3` grid: 12 invocations and per-pair coverage. -/
theorem for_each_pair_coverage_witness :
    1 ≤ 3 ∧ ((forEachPairTrace 3 3).length = 3 * (3 - 1) + 3 * (3 - 1) ∧
      ∀ p q : Pos, p.1 < 3 → p.2 < 3 → q.1 < 3 → q.2 < 3 → Adjacent p q →
        (forEachPairTrace 3 3).count (p, q) + (forEachPairTrace 3 3).count (q, p) = 1) :=
  ⟨by decide, for_each_pair_coverage 3 3 (by decide) (by decide)⟩

/-- Claim C4: `for_each_pair` visits pairs in exactly this order: the vertical
    edges of column 0 top to bottom (`((y-1,0),(y,0))` for `y = 1..R-1`), then
    the horizontal edges of row 0 left to right (`((0,x-1),(0,x))` for
    `x = 1..C-1`), then for each row `y = 1..R-1` and column `x = 1..C-1` in
    that nested order the vertical pair `((y-1,x),(y,x))` followed by the
    horizontal pair `((y,x-1),(y,x))`; every invocation receives the earlier
    (up or left) position first and the later (down or right) position
    second. -/
theorem for_each_pair_order (R C : Nat) (hR : 1 ≤ R) (hC : 1 ≤ C) :
    forEachPairTrace R C =
      (List.range' 1 (R - 1)).map (fun y => ((y - 1, 0), (y, 0))) ++
        (List.range' 1 (C - 1)).map (fun x => ((0, x - 1), (0, x))) ++
          (List.range' 1 (R - 1)).flatMap (fun y =>
            (List.range' 1 (C - 1)).flatMap (fun x =>
              [((y - 1, x), (y, x)), ((y, x - 1), (y, x))])) ∧
    ∀ pr ∈ forEachPairTrace R C, pr.2 = rowAdv pr.1 ∨ pr.2 = colAdv pr.1 := by
  constructor
  · rw [forEachPairTrace_eq]
    refine congrArg₂ (· ++ ·) (congrArg₂ (· ++ ·) ?_ ?_) ?_
    · rw [List.range'_eq_map_range, List.map_map]
      refine List.map_congr_left fun i _ => ?_
      simp only [Function.comp_apply, Prod.mk.injEq, and_true, true_and] <;> omega
    · rw [List.range'_eq_map_range, List.map_map]
      refine List.map_congr_left fun i _ => ?_
      simp only [Function.comp_apply, Prod.mk.injEq, and_true, true_and] <;> omega
    · refine flatMap_congr_left fun y hy => ?_
      rw [List.mem_range'_1] at hy
      rw [List.range'_eq_map_range, List.flatMap_map]
      refine flatMap_congr_left fun i _ => ?_
      simp only [Function.comp_apply, List.cons.injEq, Prod.mk.injEq, List.nil_eq,
        and_true, true_and] <;> omega
  · intro pr hpr
    rcases (mem_forEachPairTrace R C hR hC pr).mp hpr with ⟨y, x, _, _, rfl⟩ | ⟨y, x, _, _, rfl⟩
    · exact Or.inl rfl
    · exact Or.inr rfl

/-- Witness for C4 on a `2 × 3` grid. -/
theorem for_each_pair_order_witness :
    1 ≤ 2 ∧ (forEachPairTrace 2 3 =
      (List.range' 1 (2 - 1)).map (fun y => ((y - 1, 0), (y, 0))) ++
        (List.range' 1 (3 - 1)).map (fun x => ((0, x - 1), (0, x))) ++
          (List.range' 1 (2 - 1)).flatMap (fun y =>
            (List.range' 1 (3 - 1)).flatMap (fun x =>
              [((y - 1, x), (y, x)), ((y, x - 1), (y, x))])) ∧
      ∀ pr ∈ forEachPairTrace 2 3, pr.2 = rowAdv pr.1 ∨ pr.2 = colAdv pr.1) :=
  ⟨by decide, for_each_pair_order 2 3 (by decide) (by decide)⟩

/-- Claim C5: on any grid of shape `R × C` (`R, C ≥ 0`), `for_each` invokes
    the functor exactly `R*C` times, once per position, in row-major order
    (`y` outer, `x` inner); at each position the functor receives one element
    per grid, in grid-argument order (shown for the one- and two-grid
    templates). -/
theorem for_each_row_major {α β γ : Type} (R C : Nat) (m : GridData α)
    (m1 : GridData β) (m2 : GridData γ)
    (hr : m1.rows = m2.rows) (hc : m1.cols = m2.cols) :
    forEachTrace R C = (List.range R).flatMap (fun y => (List.range C).map fun x => (y, x)) ∧
    (forEachTrace R C).length = R * C ∧
    (∀ p : Pos, (forEachTrace R C).count p = if p.1 < R ∧ p.2 < C then 1 else 0) ∧
    forEach1 m = (forEachTrace m.rows m.cols).map (fun p => m.elem p.1 p.2) ∧
    forEach2 m1 m2 =
      .ok ((forEachTrace m1.rows m1.cols).map
        (fun p => (m1.elem p.1 p.2, m2.elem p.1 p.2))) := by
  refine ⟨forEachTrace_eq R C, forEachTrace_length R C, forEachTrace_count R C,
    forEach1_eq m, ?_⟩
  rw [forEach2, if_pos ⟨hr, hc⟩, forEach2RowsAux_eq, forEachTrace]

/-- Witness for C5 at `R = C = 2` with concrete grids. -/
theorem for_each_row_major_witness :
    (forEachTrace 2 2).length = 2 * 2 ∧
    forEach2 (GridData.mk 2 2 (fun y x => 10 * y + x)) (GridData.mk 2 2 (fun y x => y + x)) =
      .ok [(0, 0), (1, 1), (10, 1), (11, 2)] := by
  have h := for_each_row_major 2 2 (GridData.mk 2 2 (fun y x => 10 * y + x))
    (GridData.mk 2 2 (fun y x => 10 * y + x)) (GridData.mk 2 2 (fun y x => y + x)) rfl rfl
  exact ⟨h.2.1, by rw [h.2.2.2.2]; rfl⟩

/-! ### Crop, set, gaussian kernel, filter schedule -/

/-- Claim C6: crop composition round-trip.  For a view of shape `(R, C)` and
    any `a, b ≥ 0`, `r, c` with `a + r ≤ R` and `b + c ≤ C`,
    `view.crop(a, b, r, c).crop(-a, -b, R, C)` equals the original view in
    origin, step, rows and cols — hence addresses the same content at every
    position `0 ≤ y < R`, `0 ≤ x < C` — and a single crop yields
    `origin + step*top + left` with the step unchanged. -/
theorem crop_uncrop_roundtrip (m : MatrixWrapper) (a b r c : Nat)
    (h1 : a + r ≤ m.rows) (h2 : b + c ≤ m.cols) :
    (m.crop a b r c).crop (-(a : Int)) (-(b : Int)) m.rows m.cols = m ∧
    (∀ (top left : Int) (r2 c2 : Nat),
      (m.crop top left r2 c2).start = m.start + (m.step : Int) * top + left ∧
      (m.crop top left r2 c2).step = m.step ∧
      (m.crop top left r2 c2).rows = r2 ∧ (m.crop top left r2 c2).cols = c2) ∧
    ∀ y x : Int, 0 ≤ y → y < m.rows → 0 ≤ x → x < m.cols →
      ((m.crop a b r c).crop (-(a : Int)) (-(b : Int)) m.rows m.cols).address y x =
        m.address y x := by
  have key : (m.crop a b r c).crop (-(a : Int)) (-(b : Int)) m.rows m.cols = m := by
    obtain ⟨s, R, C, st⟩ := m
    simp only [MatrixWrapper.crop, MatrixWrapper.mk.injEq, and_true, true_and, and_self]
    ring
  exact ⟨key, fun top left r2 c2 => ⟨rfl, rfl, rfl, rfl⟩, fun y x _ _ _ _ => by rw [key]⟩

/-- Witness for C6: a `4 × 6` view with step 7 and origin 5, cropped by
    `(1, 2, 2, 3)` and un-cropped. -/
theorem crop_uncrop_roundtrip_witness :
    1 + 2 ≤ 4 ∧ 2 + 3 ≤ 6 ∧
    ((MatrixWrapper.mk 5 4 6 7).crop ((1 : Nat) : Int) ((2 : Nat) : Int) 2 3).crop
        (-((1 : Nat) : Int)) (-((2 : Nat) : Int)) 4 6 = MatrixWrapper.mk 5 4 6 7 :=
  ⟨by decide, by decide,
    (crop_uncrop_roundtrip (MatrixWrapper.mk 5 4 6 7) 1 2 2 3 (by decide) (by decide)).1⟩

/-- Claim C10 (evaluating the code at the failing input): the inner loop of
    `MatrixWrapper::set` runs `x` up to `rows()`, not `cols()`.  On a `2 × 3`
    grid with `step = 3` and origin 0, `set true` over an all-`false` buffer
    leaves element `(0, 2)` equal to `false` while `(0, 1)` becomes `true`. -/
theorem set_fills_all_bug :
    (MatrixWrapper.set (MatrixWrapper.mk 0 2 3 3) true (fun _ => false))
      ((MatrixWrapper.mk 0 2 3 3).address 0 2) = false ∧
    (MatrixWrapper.set (MatrixWrapper.mk 0 2 3 3) true (fun _ => false))
      ((MatrixWrapper.mk 0 2 3 3).address 0 1) = true := by
  decide

/-- Claim C2 (evaluating the code at the failing input): `gaussian_kernel`
    mirrors columns around `rows/2` instead of `cols/2` (Filter.hpp lines
    177-180).  For a `3 × 5` kernel the in-range cell `(0, 4)` is never
    assigned, while the out-of-range cell `(0, -1)` is assigned. -/
theorem gaussian_kernel_center_bug :
    ((0 : Int), (4 : Int)) ∉ (gaussianWrites 3 5).map Prod.fst ∧
    ((0 : Int), (-1 : Int)) ∈ (gaussianWrites 3 5).map Prod.fst := by
  decide

/-- Claim C1 (evaluating the code at the failing input): the left and right
    bands of `filter` bound their column extent by `kernel.rows()/2` instead
    of `kernel.cols()/2` (Filter.hpp lines 131, 136).  With an `8 × 12` input
    and a `3 × 5` kernel (odd sizes, `3*2+1 < 8`, `5*2+1 < 12`), output
    position `(1, 1)` is never visited — `evaluate` is never invoked there —
    while `(1, 2)` is visited once; with a `12 × 8` input and a `5 × 3`
    kernel, position `(2, 1)` is visited twice. -/
theorem filter_eval_once_bug :
    ((filterVisits 8 12 3 5).countP (fun v => v.1 == 1 && v.2.1 == 1)) = 0 ∧
    ((filterVisits 8 12 3 5).countP (fun v => v.1 == 1 && v.2.1 == 2)) = 1 ∧
    ((filterVisits 12 8 5 3).countP (fun v => v.1 == 2 && v.2.1 == 1)) = 2 := by
  decide

/-! ### Shape checking of the multi-grid templates -/

theorem pair2ColAux_eq {α β : Type} (m1 : GridData α) (m2 : GridData β) (n : Nat) :
    ∀ u d : Pos, pair2ColAux n m1 m2 u d u d =
      (pairColAux n u d).map (fun pq =>
        ((m1.elem pq.1.1 pq.1.2, m1.elem pq.2.1 pq.2.2),
         (m2.elem pq.1.1 pq.1.2, m2.elem pq.2.1 pq.2.2))) := by
  induction n with
  | zero => intro u d; rfl
  | succ n ih => intro u d; simp [pair2ColAux, pairColAux, ih]

theorem pair2RowAux_eq {α β : Type} (m1 : GridData α) (m2 : GridData β) (n : Nat) :
    ∀ l r : Pos, pair2RowAux n m1 m2 l r l r =
      (pairRowAux n l r).map (fun pq =>
        ((m1.elem pq.1.1 pq.1.2, m1.elem pq.2.1 pq.2.2),
         (m2.elem pq.1.1 pq.1.2, m2.elem pq.2.1 pq.2.2))) := by
  induction n with
  | zero => intro l r; rfl
  | succ n ih => intro l r; simp [pair2RowAux, pairRowAux, ih]

theorem pair2RestRowAux_eq {α β : Type} (m1 : GridData α) (m2 : GridData β) (n : Nat) :
    ∀ u l c : Pos, pair2RestRowAux n m1 m2 u l c u l c =
      (pairRestRowAux n u l c).map (fun pq =>
        ((m1.elem pq.1.1 pq.1.2, m1.elem pq.2.1 pq.2.2),
         (m2.elem pq.1.1 pq.1.2, m2.elem pq.2.1 pq.2.2))) := by
  induction n with
  | zero => intro u l c; rfl
  | succ n ih => intro u l c; simp [pair2RestRowAux, pairRestRowAux, ih]

theorem pair2RestAux_eq {α β : Type} (m1 : GridData α) (m2 : GridData β) (n : Nat) :
    ∀ y : Nat, pair2RestAux n m1 m2 y =
      (pairRestAux n m1.cols y).map (fun pq =>
        ((m1.elem pq.1.1 pq.1.2, m1.elem pq.2.1 pq.2.2),
         (m2.elem pq.1.1 pq.1.2, m2.elem pq.2.1 pq.2.2))) := by
  induction n with
  | zero => intro y; rfl
  | succ n ih =>
    intro y
    simp only [pair2RestAux, pairRestAux, List.map_append, ih, pair2RestRowAux_eq]

/-- Claim C9: grids of differing `rows`/`cols` passed to the two-grid
    `for_each` or `for_each_pair` make the operation fail with the
    `shapeMismatch` error (the embedded shape check) instead of iterating;
    equal-shape grids make it perform the full iteration.  Both outcomes are
    computed by a pure function of the inputs, hence deterministic. -/
theorem shape_mismatch_check {α β : Type} (m1 : GridData α) (m2 : GridData β)
    (hne : m1.rows ≠ m2.rows ∨ m1.cols ≠ m2.cols) :
    (forEach2 m1 m2 = .error .shapeMismatch ∧
      forEachPair2 m1 m2 = .error .shapeMismatch) ∧
    ∀ (m3 : GridData α) (m4 : GridData β), m3.rows = m4.rows → m3.cols = m4.cols →
      forEach2 m3 m4 =
        .ok ((forEachTrace m3.rows m3.cols).map
          (fun p => (m3.elem p.1 p.2, m4.elem p.1 p.2))) ∧
      forEachPair2 m3 m4 =
        .ok ((forEachPairTrace m3.rows m3.cols).map
          (fun pq => ((m3.elem pq.1.1 pq.1.2, m3.elem pq.2.1 pq.2.2),
                      (m4.elem pq.1.1 pq.1.2, m4.elem pq.2.1 pq.2.2)))) := by
  have hns : ¬(m1.rows = m2.rows ∧ m1.cols = m2.cols) := by tauto
  refine ⟨⟨by rw [forEach2, if_neg hns], by rw [forEachPair2, if_neg hns]⟩, ?_⟩
  intro m3 m4 hr hc
  constructor
  · rw [forEach2, if_pos ⟨hr, hc⟩, forEach2RowsAux_eq, forEachTrace]
  · rw [forEachPair2, if_pos ⟨hr, hc⟩, forEachPairTrace, List.map_append, List.map_append,
      pair2ColAux_eq, pair2RowAux_eq, pair2RestAux_eq]

/-- Witness for C9: a `1×2` vs `1×3` pair fails with `shapeMismatch`; a
    matching `1×2` pair iterates. -/
theorem shape_mismatch_check_witness :
    forEach2 (GridData.mk 1 2 (fun _ _ => (0 : Nat))) (GridData.mk 1 3 (fun _ _ => (0 : Nat))) =
      .error .shapeMismatch ∧
    forEachPair2 (GridData.mk 1 2 (fun _ _ => (0 : Nat)))
      (GridData.mk 1 3 (fun _ _ => (0 : Nat))) = .error .shapeMismatch ∧
    forEach2 (GridData.mk 1 2 (fun _ x => x)) (GridData.mk 1 2 (fun _ x => x + 1)) =
      .ok [(0, 1), (1, 2)] := by
  have h1 := (shape_mismatch_check (GridData.mk 1 2 (fun _ _ => (0 : Nat)))
    (GridData.mk 1 3 (fun _ _ => (0 : Nat))) (Or.inr (by decide))).1
  have h2 := ((shape_mismatch_check (GridData.mk 1 2 (fun _ _ => (0 : Nat)))
    (GridData.mk 1 3 (fun _ _ => (0 : Nat))) (Or.inr (by decide))).2
    (GridData.mk 1 2 (fun _ x => x)) (GridData.mk 1 2 (fun _ x => x + 1)) rfl rfl).1
  exact ⟨h1.1, h1.2, by rw [h2]; rfl⟩

/-! ### Filter boundary safety -/

theorem mem_cForAux {β : Type} (body : Int → List β) (a : β) :
    ∀ (fuel : Nat) (lo hi : Int), fuel = (hi - lo).toNat →
      (a ∈ cForAux fuel lo hi body ↔ ∃ i : Int, lo ≤ i ∧ i < hi ∧ a ∈ body i) := by
  intro fuel
  induction fuel with
  | zero =>
    intro lo hi h
    simp only [cForAux, List.not_mem_nil, false_iff, not_exists]
    intro i hi2
    rcases hi2 with ⟨g1, g2, _⟩
    omega
  | succ n ih =>
    intro lo hi h
    have hlt : lo < hi := by omega
    simp only [cForAux, if_pos hlt, List.mem_append]
    rw [ih (lo + 1) hi (by omega)]
    constructor
    · rintro (h1 | ⟨i, h1, h2, h3⟩)
      · exact ⟨lo, le_refl lo, hlt, h1⟩
      · exact ⟨i, by omega, h2, h3⟩
    · rintro ⟨i, h1, h2, h3⟩
      rcases eq_or_lt_of_le h1 with rfl | h4
      · exact Or.inl h3
      · exact Or.inr ⟨i, by omega, h2, h3⟩

theorem mem_cFor {β : Type} (body : Int → List β) (a : β) (lo hi : Int) :
    a ∈ cFor lo hi body ↔ ∃ i : Int, lo ≤ i ∧ i < hi ∧ a ∈ body i :=
  mem_cForAux body a _ lo hi rfl

/-- On the boundary path, every accumulated pair reads an in-range input cell
    and the kernel cell at the matching offset — for any output position. -/
theorem parseWithCheckPairs_safe (R C krows kcols x y : Int)
    (hkr : krows % 2 = 1) (hkc : kcols % 2 = 1) (hkrp : 0 < krows) (hkcp : 0 < kcols) :
    ∀ pr ∈ parseWithCheckPairs R C krows kcols x y,
      (0 ≤ pr.1.1 ∧ pr.1.1 < R ∧ 0 ≤ pr.1.2 ∧ pr.1.2 < C) ∧
      (0 ≤ pr.2.1 ∧ pr.2.1 < krows ∧ 0 ≤ pr.2.2 ∧ pr.2.2 < kcols) ∧
      pr.2.1 = pr.1.1 - y + krows / 2 ∧ pr.2.2 = pr.1.2 - x + kcols / 2 := by
  intro pr hpr
  simp only [parseWithCheckPairs] at hpr
  rw [mem_cFor] at hpr
  obtain ⟨i, hi1, hi2, hpr⟩ := hpr
  rw [mem_cFor] at hpr
  obtain ⟨j, hj1, hj2, hpr⟩ := hpr
  simp only [List.mem_singleton] at hpr
  subst hpr
  simp only
  omega

/-- On the central path, every accumulated pair reads an in-range input cell
    and the kernel cell at the matching offset, given the interior bounds. -/
theorem centralPairs_safe (R C krows kcols x y : Int)
    (hkr : krows % 2 = 1) (hkc : kcols % 2 = 1) (hkrp : 0 < krows) (hkcp : 0 < kcols)
    (hy1 : krows / 2 ≤ y) (hy2 : y < R - krows / 2)
    (hx1 : kcols / 2 ≤ x) (hx2 : x < C - kcols / 2) :
    ∀ pr ∈ centralPairs krows kcols x y,
      (0 ≤ pr.1.1 ∧ pr.1.1 < R ∧ 0 ≤ pr.1.2 ∧ pr.1.2 < C) ∧
      (0 ≤ pr.2.1 ∧ pr.2.1 < krows ∧ 0 ≤ pr.2.2 ∧ pr.2.2 < kcols) ∧
      pr.2.1 = pr.1.1 - y + krows / 2 ∧ pr.2.2 = pr.1.2 - x + kcols / 2 := by
  intro pr hpr
  simp only [centralPairs] at hpr
  rw [mem_cFor] at hpr
  obtain ⟨i, hi1, hi2, hpr⟩ := hpr
  rw [mem_cFor] at hpr
  obtain ⟨j, hj1, hj2, hpr⟩ := hpr
  simp only [List.mem_singleton] at hpr
  subst hpr
  simp only
  omega

/-- Claim C8: during `filter`, every `(input pixel, kernel weight)` pair passed
    to the accumulate functor pairs an input cell inside the declared extent
    (`0 ≤ iy < rows`, `0 ≤ ix < cols`) with the kernel cell at the matching
    offset from the kernel center (`(iy - y + krows/2, ix - x + kcols/2)`,
    itself inside the kernel): at boundary positions the window and the kernel
    are clipped to the same sub-rectangle, so `filter` never reads an input
    cell outside the declared `rows`/`cols`. -/
theorem filter_accum_pairs_safe (R C krows kcols : Int)
    (hkr : krows % 2 = 1) (hkc : kcols % 2 = 1) (hkrp : 0 < krows) (hkcp : 0 < kcols)
    (hR : krows * 2 + 1 < R) (hC : kcols * 2 + 1 < C) :
    ∀ v ∈ filterVisits R C krows kcols,
      ∀ pr ∈ visitPairs R C krows kcols v,
        (0 ≤ pr.1.1 ∧ pr.1.1 < R ∧ 0 ≤ pr.1.2 ∧ pr.1.2 < C) ∧
        (0 ≤ pr.2.1 ∧ pr.2.1 < krows ∧ 0 ≤ pr.2.2 ∧ pr.2.2 < kcols) ∧
        pr.2.1 = pr.1.1 - v.1 + krows / 2 ∧ pr.2.2 = pr.1.2 - v.2.1 + kcols / 2 := by
  intro v hv
  simp only [filterVisits, List.mem_append] at hv
  have hband : ∀ (y x : Int), v = (y, x, true) →
      ∀ pr ∈ visitPairs R C krows kcols v,
        (0 ≤ pr.1.1 ∧ pr.1.1 < R ∧ 0 ≤ pr.1.2 ∧ pr.1.2 < C) ∧
        (0 ≤ pr.2.1 ∧ pr.2.1 < krows ∧ 0 ≤ pr.2.2 ∧ pr.2.2 < kcols) ∧
        pr.2.1 = pr.1.1 - v.1 + krows / 2 ∧ pr.2.2 = pr.1.2 - v.2.1 + kcols / 2 := by
    rintro y x rfl pr hpr
    simp only [visitPairs, if_pos] at hpr
    exact parseWithCheckPairs_safe R C krows kcols x y hkr hkc hkrp hkcp pr hpr
  rcases hv with (((hv | hv) | hv) | hv) | hv
  · rw [mem_cFor] at hv
    obtain ⟨y, _, _, hv⟩ := hv
    rw [mem_cFor] at hv
    obtain ⟨x, _, _, hv⟩ := hv
    simp only [List.mem_singleton] at hv
    exact hband y x hv
  · rw [mem_cFor] at hv
    obtain ⟨y, _, _, hv⟩ := hv
    rw [mem_cFor] at hv
    obtain ⟨x, _, _, hv⟩ := hv
    simp only [List.mem_singleton] at hv
    exact hband y x hv
  · rw [mem_cFor] at hv
    obtain ⟨y, _, _, hv⟩ := hv
    rw [mem_cFor] at hv
    obtain ⟨x, _, _, hv⟩ := hv
    simp only [List.mem_singleton] at hv
    exact hband y x hv
  · rw [mem_cFor] at hv
    obtain ⟨y, _, _, hv⟩ := hv
    rw [mem_cFor] at hv
    obtain ⟨x, _, _, hv⟩ := hv
    simp only [List.mem_singleton] at hv
    exact hband y x hv
  · rw [mem_cFor] at hv
    obtain ⟨y, hy1, hy2, hv⟩ := hv
    rw [mem_cFor] at hv
    obtain ⟨x, hx1, hx2, hv⟩ := hv
    simp only [List.mem_singleton] at hv
    subst hv
    intro pr hpr
    simp only [visitPairs, if_neg, Bool.false_eq_true, not_false_iff] at hpr
    simpa using
      centralPairs_safe R C krows kcols x y hkr hkc hkrp hkcp hy1 hy2 hx1 hx2 pr hpr

/-- Witness for C8: an `8 × 12` input with a `3 × 5` kernel. -/
theorem filter_accum_pairs_safe_witness :
    ((3 : Int) % 2 = 1 ∧ (5 : Int) % 2 = 1 ∧ (0 : Int) < 3 ∧ (0 : Int) < 5 ∧
      (3 : Int) * 2 + 1 < 8 ∧ (5 : Int) * 2 + 1 < 12) ∧
    ∀ v ∈ filterVisits 8 12 3 5,
      ∀ pr ∈ visitPairs 8 12 3 5 v,
        (0 ≤ pr.1.1 ∧ pr.1.1 < 8 ∧ 0 ≤ pr.1.2 ∧ pr.1.2 < 12) ∧
        (0 ≤ pr.2.1 ∧ pr.2.1 < 3 ∧ 0 ≤ pr.2.2 ∧ pr.2.2 < 5) ∧
        pr.2.1 = pr.1.1 - v.1 + 3 / 2 ∧ pr.2.2 = pr.1.2 - v.2.1 + 5 / 2 :=
  ⟨⟨by decide, by decide, by decide, by decide, by decide, by decide⟩,
    filter_accum_pairs_safe 8 12 3 5 (by decide) (by decide) (by decide) (by decide)
      (by decide) (by decide)⟩

/-! ### Clone deep-copy -/

theorem writeEl_buf_other {α : Type} (st : Store α) (m : MatRef) (y x : Nat) (v : α)
    (i : Nat) (h : i ≠ m.bufId) : (writeEl st m y x v).buf i = st.buf i := by
  funext o
  simp [writeEl, h]

theorem copyRowAux_buf_other {α : Type} (src dst : MatRef) (y : Nat) :
    ∀ (n x : Nat) (st : Store α) (i : Nat), i ≠ dst.bufId →
      (copyRowAux src dst y n x st).buf i = st.buf i := by
  intro n
  induction n with
  | zero => intro x st i _; rfl
  | succ n ih =>
    intro x st i h
    simp only [copyRowAux]
    rw [ih (x + 1) _ i h, writeEl_buf_other _ _ _ _ _ _ h]

theorem copyRowsAux_buf_other {α : Type} (src dst : MatRef) :
    ∀ (n y0 : Nat) (st : Store α) (i : Nat), i ≠ dst.bufId →
      (copyRowsAux src dst n y0 st).buf i = st.buf i := by
  intro n
  induction n with
  | zero => intro y0 st i _; rfl
  | succ n ih =>
    intro y0 st i h
    simp only [copyRowsAux]
    rw [ih (y0 + 1) _ i h, copyRowAux_buf_other src dst y0 src.cols 0 st i h]

theorem copyRowAux_buf_dst_untouched {α : Type} (src dst : MatRef) (y : Nat) :
    ∀ (n x0 : Nat) (st : Store α) (o : Int),
      (∀ k : Nat, k < n → o ≠ dst.start + (dst.step : Int) * y + ((x0 + k : Nat) : Int)) →
      (copyRowAux src dst y n x0 st).buf dst.bufId o = st.buf dst.bufId o := by
  intro n
  induction n with
  | zero => intro x0 st o _; rfl
  | succ n ih =>
    intro x0 st o h
    simp only [copyRowAux]
    rw [ih (x0 + 1) _ o (fun k hk => by
      have h2 := h (k + 1) (by omega)
      push_cast at h2 ⊢
      omega)]
    have h0 := h 0 (by omega)
    push_cast at h0
    simp only [writeEl]
    rw [if_neg (fun hc => by push_cast at hc; omega)]

theorem copyRowAux_val {α : Type} (src dst : MatRef) (y : Nat) (hid : src.bufId ≠ dst.bufId) :
    ∀ (n x0 : Nat) (st : Store α) (x : Nat), x0 ≤ x → x < x0 + n →
      (copyRowAux src dst y n x0 st).buf dst.bufId
          (dst.start + (dst.step : Int) * y + x) =
        st.buf src.bufId (src.start + (src.step : Int) * y + x) := by
  intro n
  induction n with
  | zero => intro x0 st x h1 h2; omega
  | succ n ih =>
    intro x0 st x h1 h2
    simp only [copyRowAux]
    rcases Nat.eq_or_lt_of_le h1 with rfl | hlt
    · rw [copyRowAux_buf_dst_untouched src dst y n (x0 + 1) _ _ (fun k hk => by
        push_cast
        omega)]
      simp [writeEl, readEl]
    · rw [ih (x0 + 1) _ x (by omega) (by omega),
        writeEl_buf_other st dst y x0 _ src.bufId hid]

theorem copyRowsAux_buf_dst_untouched {α : Type} (src dst : MatRef) :
    ∀ (n y0 : Nat) (st : Store α) (o : Int),
      (∀ (yy k : Nat), y0 ≤ yy → yy < y0 + n → k < src.cols →
        o ≠ dst.start + (dst.step : Int) * yy + (k : Int)) →
      (copyRowsAux src dst n y0 st).buf dst.bufId o = st.buf dst.bufId o := by
  intro n
  induction n with
  | zero => intro y0 st o _; rfl
  | succ n ih =>
    intro y0 st o h
    simp only [copyRowsAux]
    rw [ih (y0 + 1) _ o (fun yy k a b c => h yy k (by omega) (by omega) c)]
    exact copyRowAux_buf_dst_untouched src dst y0 src.cols 0 st o
      (fun k hk => by
        have := h y0 k (le_refl _) (by omega) (by omega)
        push_cast at this ⊢
        omega)

theorem copyRowsAux_val {α : Type} (src dst : MatRef) (hid : src.bufId ≠ dst.bufId)
    (hstep : (dst.step : Int) = (src.cols : Int)) :
    ∀ (n y0 : Nat) (st : Store α) (y x : Nat), y0 ≤ y → y < y0 + n → x < src.cols →
      (copyRowsAux src dst n y0 st).buf dst.bufId
          (dst.start + (dst.step : Int) * y + x) =
        st.buf src.bufId (src.start + (src.step : Int) * y + x) := by
  intro n
  induction n with
  | zero => intro y0 st y x h1 h2 h3; omega
  | succ n ih =>
    intro y0 st y x h1 h2 h3
    simp only [copyRowsAux]
    rcases Nat.eq_or_lt_of_le h1 with rfl | hlt
    · rw [copyRowsAux_buf_dst_untouched src dst n (y0 + 1) _ _ ?rest]
      case rest =>
        intro yy k hy1 hy2 hk
        obtain ⟨d, rfl⟩ : ∃ d, yy = y0 + 1 + d := ⟨yy - (y0 + 1), by omega⟩
        have hs0 : (0 : Int) ≤ (dst.step : Int) := Int.natCast_nonneg _
        have hsd : (0 : Int) ≤ (dst.step : Int) * (d : Int) :=
          mul_nonneg hs0 (Int.natCast_nonneg _)
        have hxs : (x : Int) < (dst.step : Int) := by
          rw [hstep]; exact_mod_cast h3
        have hks : (k : Int) < (dst.step : Int) := by
          rw [hstep]; exact_mod_cast hk
        have hk0 : (0 : Int) ≤ (k : Int) := Int.natCast_nonneg _
        intro heq
        have hexp : (dst.step : Int) * ((y0 + 1 + d : Nat) : Int) =
            (dst.step : Int) * (y0 : Int) + (dst.step : Int) + (dst.step : Int) * (d : Int) := by
          push_cast
          ring
        rw [hexp] at heq
        have hx0 : (0 : Int) ≤ (x : Int) := Int.natCast_nonneg _
        linarith
      exact copyRowAux_val src dst y0 hid src.cols 0 _ x (by omega) (by omega)
    · rw [ih (y0 + 1) _ y x (by omega) (by omega) h3,
        copyRowAux_buf_other src dst y0 src.cols 0 st src.bufId hid]

/-- Claim C7: `clone` yields a grid of the same `rows`/`cols` whose element at
    every in-range position equals the source, stored in a freshly allocated
    buffer disjoint from the source: writing any element through the clone
    leaves every read through the source unchanged, and writing through the
    source leaves every read through the clone unchanged. -/
theorem clone_deep_copy {α : Type} (st : Store α) (m : MatRef) (hv : m.bufId < st.nextId) :
    (m.clone st).1.rows = m.rows ∧ (m.clone st).1.cols = m.cols ∧
    (m.clone st).1.bufId ≠ m.bufId ∧
    (∀ y x : Nat, y < m.rows → x < m.cols →
      readEl (m.clone st).2 (m.clone st).1 y x = readEl st m y x ∧
      readEl (m.clone st).2 m y x = readEl st m y x) ∧
    ∀ (y x : Nat) (v : α),
      (∀ y2 x2 : Nat, readEl (writeEl (m.clone st).2 (m.clone st).1 y x v) m y2 x2 =
        readEl (m.clone st).2 m y2 x2) ∧
      (∀ y2 x2 : Nat, readEl (writeEl (m.clone st).2 m y x v) (m.clone st).1 y2 x2 =
        readEl (m.clone st).2 (m.clone st).1 y2 x2) := by
  have hid : m.bufId ≠ st.nextId := by omega
  refine ⟨rfl, rfl, fun h => hid h.symm, ?_, ?_⟩
  · intro y x hy hx
    constructor
    · exact copyRowsAux_val m (MatRef.mk st.nextId 0 m.rows m.cols m.cols) hid rfl
        m.rows 0 (Store.mk (st.nextId + 1) st.buf) y x (by omega) (by omega) hx
    · show (copyRowsAux m (MatRef.mk st.nextId 0 m.rows m.cols m.cols) m.rows 0
        (Store.mk (st.nextId + 1) st.buf)).buf m.bufId _ = _
      rw [copyRowsAux_buf_other m (MatRef.mk st.nextId 0 m.rows m.cols m.cols)
        m.rows 0 _ m.bufId hid]
      rfl
  · intro y x v
    constructor
    · intro y2 x2
      show (writeEl (m.clone st).2 (m.clone st).1 y x v).buf m.bufId _ =
        ((m.clone st).2).buf m.bufId _
      simp only [writeEl]
      rw [if_neg (fun hc => hid hc.1)]
    · intro y2 x2
      show (writeEl (m.clone st).2 m y x v).buf st.nextId _ =
        ((m.clone st).2).buf st.nextId _
      simp only [writeEl]
      rw [if_neg (fun hc => hid hc.1.symm)]

/-- Witness for C7: a `1 × 2` view over buffer 0 in a one-buffer store. -/
theorem clone_deep_copy_witness :
    (0 : Nat) < 1 ∧
    readEl ((MatRef.mk 0 0 1 2 2).clone (Store.mk 1 (fun i o => (i : Int) + o))).2
        ((MatRef.mk 0 0 1 2 2).clone (Store.mk 1 (fun i o => (i : Int) + o))).1 0 1 =
      readEl (Store.mk 1 (fun i o => (i : Int) + o)) (MatRef.mk 0 0 1 2 2) 0 1 :=
  ⟨by decide,
    ((clone_deep_copy (Store.mk 1 (fun i o => (i : Int) + o)) (MatRef.mk 0 0 1 2 2)
      (by decide)).2.2.2.1 0 1 (by decide) (by decide)).1⟩

end His
